import Mathlib

/-!
Shallow embedding of the DDPM notebook `annotated_diffusion.ipynb`.

The diffusion schedule is a pure rational computation (torch.linspace,
cumulative products, elementwise arithmetic), embedded over `ℚ`.
Square roots and the sampling / loss functions live over `ℝ`.
Images are embedded as functions `Fin b → Fin n → ℝ` (batch index,
flattened pixel index); the per-batch broadcast performed by `extract`
becomes an index lookup at the batch's timestep.  Random draws
(`torch.randn`) are threaded as explicit arguments.
-/

namespace Diffusion

/-- Embeds `torch.linspace(start, stop, steps)`: `steps` evenly spaced points
from `start` to `stop` inclusive; a single point is `start` alone. -/
def linspace (start stop : ℚ) (steps : ℕ) : List ℚ :=
  (List.range steps).map (fun (i : ℕ) =>
    if steps ≤ 1 then start else start + (stop - start) * (i : ℚ) / ((steps : ℚ) - 1))

/-- Embeds `linear_beta_schedule`: `torch.linspace(0.0001, 0.02, timesteps)`. -/
def linear_beta_schedule (timesteps : ℕ) : List ℚ :=
  linspace (1 / 10000) (1 / 50) timesteps

/-- Embeds `alphas = 1. - betas` (elementwise). -/
def alphas (T : ℕ) : List ℚ :=
  (linear_beta_schedule T).map (fun b => 1 - b)

/-- Running products with accumulator, used to embed `torch.cumprod`. -/
def cumprodFrom (acc : ℚ) : List ℚ → List ℚ
  | [] => []
  | x :: xs => (acc * x) :: cumprodFrom (acc * x) xs

/-- Embeds `torch.cumprod(l, dim=0)`. -/
def cumprod (l : List ℚ) : List ℚ := cumprodFrom 1 l

/-- Embeds `alphas_cumprod = torch.cumprod(alphas, dim=0)`. -/
def alphas_cumprod (T : ℕ) : List ℚ := cumprod (alphas T)

/-- Embeds `alphas_cumprod_prev = F.pad(alphas_cumprod[:-1], (1, 0), value=1.0)`:
prepend `1`, drop the last element. -/
def alphas_cumprod_prev (T : ℕ) : List ℚ :=
  1 :: (alphas_cumprod T).dropLast

/-- Embeds `posterior_variance = betas * (1. - alphas_cumprod_prev) / (1. - alphas_cumprod)`
(elementwise over the aligned schedule vectors). -/
def posterior_variance (T : ℕ) : List ℚ :=
  List.zipWith (fun bp q => bp / q)
    (List.zipWith (fun b p => b * (1 - p))
      (linear_beta_schedule T) (alphas_cumprod_prev T))
    ((alphas_cumprod T).map (fun a => 1 - a))

/-- Embeds `sqrt_recip_alphas = torch.sqrt(1. / alphas)`. -/
noncomputable def sqrt_recip_alphas (T : ℕ) : List ℝ :=
  (alphas T).map (fun (a : ℚ) => Real.sqrt (1 / (a : ℝ)))

/-- Embeds `sqrt_alphas_cumprod = torch.sqrt(alphas_cumprod)`. -/
noncomputable def sqrt_alphas_cumprod (T : ℕ) : List ℝ :=
  (alphas_cumprod T).map (fun (a : ℚ) => Real.sqrt ((a : ℚ) : ℝ))

/-- Embeds `sqrt_one_minus_alphas_cumprod = torch.sqrt(1. - alphas_cumprod)`. -/
noncomputable def sqrt_one_minus_alphas_cumprod (T : ℕ) : List ℝ :=
  (alphas_cumprod T).map (fun (a : ℚ) => Real.sqrt (1 - (a : ℝ)))

/-- Index read with default `0`, the value semantics of `tensor.gather` at an
in-range index (out of range never occurs in the program). -/
def getE {α : Type} [Inhabited α] (l : List α) (i : ℕ) : α := l.getD i default

/-! Basic lemmas about the schedule vectors. -/

theorem linspace_length (start stop : ℚ) (steps : ℕ) :
    (linspace start stop steps).length = steps := by
  simp [linspace]

theorem linear_beta_schedule_length (T : ℕ) :
    (linear_beta_schedule T).length = T := by
  simp [linear_beta_schedule, linspace_length]

theorem alphas_length (T : ℕ) : (alphas T).length = T := by
  simp [alphas, linear_beta_schedule_length]

theorem cumprodFrom_length (acc : ℚ) (l : List ℚ) :
    (cumprodFrom acc l).length = l.length := by
  induction l generalizing acc with
  | nil => rfl
  | cons x xs ih => simp [cumprodFrom, ih]

theorem alphas_cumprod_length (T : ℕ) : (alphas_cumprod T).length = T := by
  simp [alphas_cumprod, cumprod, cumprodFrom_length, alphas_length]

theorem getE_map {α β : Type} [Inhabited α] [Inhabited β]
    (f : α → β) (l : List α) (i : ℕ) (h : i < l.length) :
    getE (l.map f) i = f (getE l i) := by
  simp [getE, List.getD_eq_getElem?_getD, List.getElem?_map,
    List.getElem?_eq_getElem h]

theorem getE_linspace (start stop : ℚ) (steps i : ℕ) (h : i < steps) :
    getE (linspace start stop steps) i =
      if steps ≤ 1 then start
      else start + (stop - start) * i / ((steps : ℚ) - 1) := by
  simp [linspace, getE, List.getD_eq_getElem?_getD, List.getElem?_map,
    List.getElem?_range h]

theorem getE_betas (T i : ℕ) (h : i < T) :
    getE (linear_beta_schedule T) i =
      if T ≤ 1 then 1 / 10000
      else 1 / 10000 + (1 / 50 - 1 / 10000) * i / ((T : ℚ) - 1) := by
  simp [linear_beta_schedule, getE_linspace _ _ _ _ h]

theorem getE_alphas (T i : ℕ) (h : i < T) :
    getE (alphas T) i = 1 - getE (linear_beta_schedule T) i := by
  have := getE_map (fun b => 1 - b) (linear_beta_schedule T) i
    (by simpa [linear_beta_schedule_length] using h)
  simpa [alphas] using this

/-- Pointwise characterisation of `cumprodFrom`: entry `i` multiplies the
accumulator by the product of the first `i + 1` entries. -/
theorem getE_cumprodFrom (acc : ℚ) (l : List ℚ) (i : ℕ) (h : i < l.length) :
    getE (cumprodFrom acc l) i =
      acc * ∏ j ∈ Finset.range (i + 1), getE l j := by
  induction l generalizing acc i with
  | nil => simp at h
  | cons x xs ih =>
    cases i with
    | zero => simp [cumprodFrom, getE]
    | succ n =>
      have hn : n < xs.length := by simpa using h
      have hx : getE (cumprodFrom acc (x :: xs)) (n + 1)
          = getE (cumprodFrom (acc * x) xs) n := by
        simp [cumprodFrom, getE]
      rw [hx, ih (acc * x) n hn]
      rw [Finset.prod_range_succ' (fun j => getE (x :: xs) j) (n + 1)]
      have hshift : ∀ j, getE (x :: xs) (j + 1) = getE xs j := by
        intro j; simp [getE]
      have hx0 : getE (x :: xs) 0 = x := by simp [getE]
      simp only [hshift, hx0]
      ring

theorem getE_alphas_cumprod (T t : ℕ) (h : t < T) :
    getE (alphas_cumprod T) t = ∏ j ∈ Finset.range (t + 1), getE (alphas T) j := by
  have := getE_cumprodFrom 1 (alphas T) t (by simpa [alphas_length] using h)
  simpa [alphas_cumprod, cumprod] using this

/-! Numeric bounds on the schedule: every beta lies in `[1/10000, 1/50]`, so
every alpha lies in `[49/50, 9999/10000]`. -/

theorem betas_bounds (T i : ℕ) (h : i < T) :
    1 / 10000 ≤ getE (linear_beta_schedule T) i ∧
      getE (linear_beta_schedule T) i ≤ 1 / 50 := by
  rw [getE_betas T i h]
  by_cases hT : T ≤ 1
  · simp [hT]; norm_num
  · simp only [hT, if_false]
    push_neg at hT
    have hT2 : (2 : ℕ) ≤ T := hT
    have hTQ : (1 : ℚ) ≤ (T : ℚ) - 1 := by
      have : (2 : ℚ) ≤ (T : ℚ) := by exact_mod_cast hT2
      linarith
    have hTpos : (0 : ℚ) < (T : ℚ) - 1 := by linarith
    have hiQ : (i : ℚ) ≤ (T : ℚ) - 1 := by
      have : (i : ℚ) + 1 ≤ (T : ℚ) := by exact_mod_cast h
      linarith
    have hi0 : (0 : ℚ) ≤ (i : ℚ) := by positivity
    constructor
    · have : (0 : ℚ) ≤ (1 / 50 - 1 / 10000) * (i : ℚ) / ((T : ℚ) - 1) := by
        positivity
      linarith
    · have hfrac : (i : ℚ) / ((T : ℚ) - 1) ≤ 1 :=
        (div_le_one hTpos).mpr hiQ
      have hc : (0 : ℚ) < 1 / 50 - 1 / 10000 := by norm_num
      have : (1 / 50 - 1 / 10000) * (i : ℚ) / ((T : ℚ) - 1) ≤ 1 / 50 - 1 / 10000 := by
        rw [mul_div_assoc]
        calc (1 / 50 - 1 / 10000) * ((i : ℚ) / ((T : ℚ) - 1))
            ≤ (1 / 50 - 1 / 10000) * 1 := by
              exact mul_le_mul_of_nonneg_left hfrac (le_of_lt hc)
          _ = 1 / 50 - 1 / 10000 := by ring
      linarith

theorem alphas_bounds (T i : ℕ) (h : i < T) :
    49 / 50 ≤ getE (alphas T) i ∧ getE (alphas T) i ≤ 9999 / 10000 := by
  rw [getE_alphas T i h]
  have := betas_bounds T i h
  constructor <;> linarith [this.1, this.2]

theorem alphas_pos (T i : ℕ) (h : i < T) : 0 < getE (alphas T) i :=
  lt_of_lt_of_le (by norm_num) (alphas_bounds T i h).1

theorem alphas_le_one (T i : ℕ) (h : i < T) : getE (alphas T) i ≤ 1 :=
  le_trans (alphas_bounds T i h).2 (by norm_num)

theorem alphas_cumprod_pos (T t : ℕ) (h : t < T) :
    0 < getE (alphas_cumprod T) t := by
  rw [getE_alphas_cumprod T t h]
  apply Finset.prod_pos
  intro j hj
  exact alphas_pos T j (lt_of_lt_of_le (Finset.mem_range.mp hj) h)

theorem alphas_cumprod_succ (T t : ℕ) (h : t + 1 < T) :
    getE (alphas_cumprod T) (t + 1)
      = getE (alphas_cumprod T) t * getE (alphas T) (t + 1) := by
  rw [getE_alphas_cumprod T (t + 1) h,
    getE_alphas_cumprod T t (Nat.lt_of_succ_lt h),
    Finset.prod_range_succ]

/-- Monotone decrease of the cumulative product along the schedule. -/
theorem alphas_cumprod_anti (T s t : ℕ) (hst : s ≤ t) (ht : t < T) :
    getE (alphas_cumprod T) t ≤ getE (alphas_cumprod T) s := by
  obtain ⟨k, rfl⟩ := Nat.exists_eq_add_of_le hst
  clear hst
  induction k with
  | zero => simp
  | succ n ih =>
    have hsn : s + n < T := by omega
    have hsn1 : s + n + 1 < T := by omega
    have step : getE (alphas_cumprod T) (s + n + 1)
        ≤ getE (alphas_cumprod T) (s + n) := by
      rw [alphas_cumprod_succ T (s + n) (by omega)]
      calc getE (alphas_cumprod T) (s + n) * getE (alphas T) (s + n + 1)
          ≤ getE (alphas_cumprod T) (s + n) * 1 :=
            mul_le_mul_of_nonneg_left (alphas_le_one T _ hsn1)
              (le_of_lt (alphas_cumprod_pos T _ hsn))
        _ = getE (alphas_cumprod T) (s + n) := by ring
    have : s + (n + 1) = s + n + 1 := by omega
    rw [this]
    exact le_trans step (ih (by omega))

theorem alphas_cumprod_lt_one (T t : ℕ) (h : t < T) :
    getE (alphas_cumprod T) t < 1 := by
  have h0 : getE (alphas_cumprod T) 0 = getE (alphas T) 0 := by
    rw [getE_alphas_cumprod T 0 (Nat.lt_of_le_of_lt (Nat.zero_le t) h)]
    simp
  have := alphas_cumprod_anti T 0 t (Nat.zero_le t) h
  have hub := (alphas_bounds T 0 (Nat.lt_of_le_of_lt (Nat.zero_le t) h)).2
  rw [h0] at this
  linarith

theorem getE_cons_succ {α : Type} [Inhabited α] (x : α) (l : List α) (i : ℕ) :
    getE (x :: l) (i + 1) = getE l i := by
  simp [getE]

theorem getE_dropLast {α : Type} [Inhabited α] (l : List α) (i : ℕ)
    (h : i + 1 < l.length) :
    getE l.dropLast i = getE l i := by
  have hlen : i < l.dropLast.length := by
    simp [List.length_dropLast]; omega
  simp only [getE, List.getD_eq_getElem?_getD,
    List.getElem?_eq_getElem hlen, List.getElem?_eq_getElem (by omega : i < l.length)]
  simp [List.getElem_dropLast]

theorem alphas_cumprod_prev_length (T : ℕ) (h : 1 ≤ T) :
    (alphas_cumprod_prev T).length = T := by
  simp [alphas_cumprod_prev, List.length_dropLast, alphas_cumprod_length]
  omega

theorem getE_alphas_cumprod_prev_zero (T : ℕ) :
    getE (alphas_cumprod_prev T) 0 = 1 := by
  simp [alphas_cumprod_prev, getE]

theorem getE_alphas_cumprod_prev_succ (T t : ℕ) (h : t + 1 < T) :
    getE (alphas_cumprod_prev T) (t + 1) = getE (alphas_cumprod T) t := by
  rw [alphas_cumprod_prev, getE_cons_succ]
  exact getE_dropLast _ t (by rw [alphas_cumprod_length]; omega)

theorem getE_zipWith {α β γ : Type} [Inhabited α] [Inhabited β] [Inhabited γ]
    (f : α → β → γ) (l1 : List α) (l2 : List β) (i : ℕ)
    (h1 : i < l1.length) (h2 : i < l2.length) :
    getE (List.zipWith f l1 l2) i = f (getE l1 i) (getE l2 i) := by
  induction l1 generalizing l2 i with
  | nil => simp at h1
  | cons x xs ih =>
    cases l2 with
    | nil => simp at h2
    | cons y ys =>
      cases i with
      | zero => simp [getE]
      | succ n =>
        rw [List.zipWith_cons_cons, getE_cons_succ, getE_cons_succ, getE_cons_succ]
        exact ih ys n (by simpa using h1) (by simpa using h2)

/-- Pointwise characterisation of the posterior-variance vector. -/
theorem getE_posterior_variance (T t : ℕ) (h : t < T) :
    getE (posterior_variance T) t =
      getE (linear_beta_schedule T) t * (1 - getE (alphas_cumprod_prev T) t)
        / (1 - getE (alphas_cumprod T) t) := by
  have h1 : t < (List.zipWith (fun b p => b * (1 - p))
      (linear_beta_schedule T) (alphas_cumprod_prev T)).length := by
    rw [List.length_zipWith, linear_beta_schedule_length,
      alphas_cumprod_prev_length T (by omega)]
    omega
  have h2 : t < ((alphas_cumprod T).map (fun a => 1 - a)).length := by
    rw [List.length_map, alphas_cumprod_length]; omega
  rw [posterior_variance, getE_zipWith _ _ _ t h1 h2,
    getE_zipWith _ _ _ t (by rw [linear_beta_schedule_length]; omega)
      (by rw [alphas_cumprod_prev_length T (by omega)]; omega),
    getE_map _ _ t (by rw [alphas_cumprod_length]; omega)]

theorem posterior_variance_length (T : ℕ) (h : 1 ≤ T) :
    (posterior_variance T).length = T := by
  simp [posterior_variance, List.length_zipWith, linear_beta_schedule_length,
    alphas_cumprod_prev_length T h, alphas_cumprod_length]

/-- Embeds `num_to_groups` from the notebook: `num // divisor` copies of
`divisor`, then the positive remainder if any. -/
def num_to_groups (num divisor : ℕ) : List ℕ :=
  let groups := num / divisor
  let remainder := num % divisor
  let arr := List.replicate groups divisor
  if remainder > 0 then arr ++ [remainder] else arr

/-! Images and models.  An image batch is a function of batch index and
flattened pixel index; a model maps an image batch and a per-batch timestep
vector to a predicted-noise batch. -/

/-- Tensor of shape `(b, ...)` with `n` scalars per batch element. -/
abbrev Img (b n : ℕ) : Type := Fin b → Fin n → ℝ

/-- A denoising model: `model(x, t)`, same output shape as `x`. -/
abbrev Model (b n : ℕ) : Type := Img b n → (Fin b → ℕ) → Img b n

/-- Pointwise evaluation lemmas for the real-valued schedule vectors. -/
theorem getE_sqrt_recip_alphas (T i : ℕ) (h : i < T) :
    getE (sqrt_recip_alphas T) i = Real.sqrt (1 / ((getE (alphas T) i : ℚ) : ℝ)) := by
  rw [sqrt_recip_alphas]
  exact getE_map (fun a : ℚ => Real.sqrt (1 / (a : ℝ))) (alphas T) i
    (by rw [alphas_length]; exact h)

theorem getE_sqrt_alphas_cumprod (T i : ℕ) (h : i < T) :
    getE (sqrt_alphas_cumprod T) i = Real.sqrt ((getE (alphas_cumprod T) i : ℚ) : ℝ) := by
  rw [sqrt_alphas_cumprod]
  exact getE_map (fun a : ℚ => Real.sqrt (a : ℝ)) (alphas_cumprod T) i
    (by rw [alphas_cumprod_length]; exact h)

theorem getE_sqrt_one_minus_alphas_cumprod (T i : ℕ) (h : i < T) :
    getE (sqrt_one_minus_alphas_cumprod T) i
      = Real.sqrt (1 - ((getE (alphas_cumprod T) i : ℚ) : ℝ)) := by
  rw [sqrt_one_minus_alphas_cumprod]
  exact getE_map (fun a : ℚ => Real.sqrt (1 - (a : ℝ))) (alphas_cumprod T) i
    (by rw [alphas_cumprod_length]; exact h)

/-- Embeds `q_sample(x_start, t, noise=None)`.  `randn` is the ambient
standard-normal draw used when `noise` is omitted (`torch.randn_like`). -/
noncomputable def q_sample (T : ℕ) {b n : ℕ} (x_start : Img b n)
    (t : Fin b → ℕ) (noise? : Option (Img b n)) (randn : Img b n) : Img b n :=
  let noise := noise?.getD randn
  fun i j =>
    getE (sqrt_alphas_cumprod T) (t i) * x_start i j
      + getE (sqrt_one_minus_alphas_cumprod T) (t i) * noise i j

/-- Embeds `p_sample(model, x, t, t_index)`.  `randn` is the ambient
standard-normal draw used when `t_index ≠ 0` (`torch.randn_like`). -/
noncomputable def p_sample (T : ℕ) {b n : ℕ} (model : Model b n) (x : Img b n)
    (t : Fin b → ℕ) (t_index : ℕ) (randn : Img b n) : Img b n :=
  let model_mean : Img b n := fun i j =>
    getE (sqrt_recip_alphas T) (t i) *
      (x i j - ((getE (linear_beta_schedule T) (t i) : ℚ) : ℝ) * model x t i j
        / getE (sqrt_one_minus_alphas_cumprod T) (t i))
  if t_index = 0 then model_mean
  else fun i j =>
    model_mean i j
      + Real.sqrt ((getE (posterior_variance T) (t i) : ℚ) : ℝ) * randn i j

/-- The body of the sampling loop, recursing over the remaining step count:
`p_sample_loop_aux T model noiseAt k img` performs the steps at indices
`k-1, k-2, …, 0` starting from `img`, collecting each intermediate image. -/
noncomputable def p_sample_loop_aux (T : ℕ) {b n : ℕ} (model : Model b n)
    (noiseAt : ℕ → Img b n) : ℕ → Img b n → List (Img b n)
  | 0, _ => []
  | k + 1, img =>
    let img2 := p_sample T model img (fun _ => k) k (noiseAt k)
    img2 :: p_sample_loop_aux T model noiseAt k img2

/-- Embeds `p_sample_loop(model, shape)`: start from the pure-noise draw
`init`, run `p_sample` for `i = T-1, …, 0`, appending each result. -/
noncomputable def p_sample_loop (T : ℕ) {b n : ℕ} (model : Model b n)
    (init : Img b n) (noiseAt : ℕ → Img b n) : List (Img b n) :=
  p_sample_loop_aux T model noiseAt T init

/-- One reverse step at loop index `k` (timestep vector and index both `k`). -/
noncomputable def stepAt (T : ℕ) {b n : ℕ} (model : Model b n)
    (noiseAt : ℕ → Img b n) (k : ℕ) (img : Img b n) : Img b n :=
  p_sample T model img (fun _ => k) k (noiseAt k)

/-- Specification-side trajectory of the reverse chain run from `img` with
`k` steps: entry `i` is the image after the steps at `k-1, …, k-1-i`. -/
noncomputable def trajFrom (T : ℕ) {b n : ℕ} (model : Model b n)
    (noiseAt : ℕ → Img b n) (k : ℕ) (img : Img b n) : ℕ → Img b n
  | 0 => stepAt T model noiseAt (k - 1) img
  | i + 1 => stepAt T model noiseAt (k - 1 - (i + 1))
      (trajFrom T model noiseAt k img i)

theorem p_sample_loop_aux_length (T : ℕ) {b n : ℕ} (model : Model b n)
    (noiseAt : ℕ → Img b n) (k : ℕ) (img : Img b n) :
    (p_sample_loop_aux T model noiseAt k img).length = k := by
  induction k generalizing img with
  | zero => rfl
  | succ m ih => simp [p_sample_loop_aux, ih]

theorem trajFrom_shift (T : ℕ) {b n : ℕ} (model : Model b n)
    (noiseAt : ℕ → Img b n) (k : ℕ) (img : Img b n) (m : ℕ) :
    trajFrom T model noiseAt (k + 1) img (m + 1)
      = trajFrom T model noiseAt k (stepAt T model noiseAt k img) m := by
  induction m with
  | zero =>
    show stepAt T model noiseAt (k + 1 - 1 - 1) (trajFrom T model noiseAt (k + 1) img 0)
      = stepAt T model noiseAt (k - 1) (stepAt T model noiseAt k img)
    have h1 : k + 1 - 1 - 1 = k - 1 := by omega
    have h2 : trajFrom T model noiseAt (k + 1) img 0 = stepAt T model noiseAt k img := by
      show stepAt T model noiseAt (k + 1 - 1) img = _
      norm_num
    rw [h1, h2]
  | succ p ih =>
    show stepAt T model noiseAt (k + 1 - 1 - (p + 2)) (trajFrom T model noiseAt (k + 1) img (p + 1))
      = stepAt T model noiseAt (k - 1 - (p + 1)) (trajFrom T model noiseAt k (stepAt T model noiseAt k img) p)
    rw [ih]
    have : k + 1 - 1 - (p + 2) = k - 1 - (p + 1) := by omega
    rw [this]

/-- The `i`-th element of the loop output is the trajectory entry `i`. -/
theorem p_sample_loop_aux_getE (T : ℕ) {b n : ℕ} (model : Model b n)
    (noiseAt : ℕ → Img b n) (k : ℕ) (img : Img b n) (i : ℕ) (h : i < k) :
    getE (p_sample_loop_aux T model noiseAt k img) i
      = trajFrom T model noiseAt k img i := by
  induction k generalizing img i with
  | zero => omega
  | succ m ih =>
    cases i with
    | zero =>
      show getE (_ :: _) 0 = _
      have : trajFrom T model noiseAt (m + 1) img 0
          = stepAt T model noiseAt m img := by
        show stepAt T model noiseAt (m + 1 - 1) img = _
        norm_num
      rw [this]
      simp [p_sample_loop_aux, getE, stepAt]
    | succ p =>
      have hp : p < m := by omega
      rw [trajFrom_shift]
      show getE (p_sample_loop_aux T model noiseAt (m + 1) img) (p + 1) = _
      have hcons : p_sample_loop_aux T model noiseAt (m + 1) img
          = stepAt T model noiseAt m img
            :: p_sample_loop_aux T model noiseAt m (stepAt T model noiseAt m img) := by
        simp [p_sample_loop_aux, stepAt]
      rw [hcons, getE_cons_succ]
      exact ih _ p hp

/-! Losses.  PyTorch's `F.l1_loss`, `F.mse_loss` and `F.smooth_l1_loss`
with default `reduction='mean'` and (for smooth L1) `beta=1.0`. -/

/-- Embeds `F.l1_loss(pred, target)`: mean absolute difference. -/
noncomputable def l1_loss {b n : ℕ} (pred target : Img b n) : ℝ :=
  (∑ i, ∑ j, |pred i j - target i j|) / ((b : ℝ) * (n : ℝ))

/-- Embeds `F.mse_loss(pred, target)`: mean squared difference. -/
noncomputable def mse_loss {b n : ℕ} (pred target : Img b n) : ℝ :=
  (∑ i, ∑ j, (pred i j - target i j) ^ 2) / ((b : ℝ) * (n : ℝ))

/-- Embeds `F.smooth_l1_loss(pred, target)` with `beta = 1`: quadratic below
`1`, linear above, averaged. -/
noncomputable def smooth_l1_loss {b n : ℕ} (pred target : Img b n) : ℝ :=
  (∑ i, ∑ j,
      if |pred i j - target i j| < 1 then (pred i j - target i j) ^ 2 / 2
      else |pred i j - target i j| - 1 / 2) / ((b : ℝ) * (n : ℝ))

/-- Embeds `p_losses(denoise_model, x_start, t, noise=None, loss_type="l1")`.
`randn` is the ambient standard-normal draw used when `noise` is omitted;
the `NotImplementedError` raise is embedded as `Except.error`. -/
noncomputable def p_losses (T : ℕ) {b n : ℕ} (denoise_model : Model b n)
    (x_start : Img b n) (t : Fin b → ℕ) (noise? : Option (Img b n))
    (randn : Img b n) (loss_type : String) : Except String ℝ :=
  let noise := noise?.getD randn
  let x_noisy := q_sample T x_start t (some noise) randn
  let predicted_noise := denoise_model x_noisy t
  if loss_type = "l1" then Except.ok (l1_loss predicted_noise noise)
  else if loss_type = "l2" then Except.ok (mse_loss predicted_noise noise)
  else if loss_type = "huber" then Except.ok (smooth_l1_loss predicted_noise noise)
  else Except.error "NotImplementedError"

/-! Shape-level semantics of the U-Net.  A layer is embedded as a partial
function on tensor shapes `(batch, channels, height, width)`: `none` means
the runtime rejects the input (channel mismatch, odd spatial size for the
pixel-unshuffle downsample, empty spatial output of a convolution, group
count not dividing the channels). -/

/-- Tensor shape `(batch, channels, height, width)`. -/
structure Shape where
  b : ℕ
  c : ℕ
  h : ℕ
  w : ℕ
deriving DecidableEq

/-- Embeds `nn.Conv2d(in_ch, out_ch, k, padding=pad)` (stride 1) at shape
level: requires matching input channels and a nonempty output window. -/
def conv2dShape (in_ch out_ch k pad : ℕ) (s : Shape) : Option Shape :=
  if s.c = in_ch ∧ k ≤ s.h + 2 * pad ∧ k ≤ s.w + 2 * pad then
    some ⟨s.b, out_ch, s.h + 2 * pad - k + 1, s.w + 2 * pad - k + 1⟩
  else none

/-- Embeds `nn.GroupNorm(groups, ch)`: requires `ch` channels divisible into
`groups` groups; preserves the shape. -/
def groupNormShape (groups ch : ℕ) (s : Shape) : Option Shape :=
  if s.c = ch ∧ 0 < groups ∧ ch % groups = 0 then some s else none

/-- Embeds `Block(dim, dim_out, groups)`: weight-standardized 3x3 conv with
padding 1, group norm, SiLU (and the broadcast scale/shift). -/
def blockShape (dim dim_out groups : ℕ) (s : Shape) : Option Shape :=
  (conv2dShape dim dim_out 3 1 s).bind (groupNormShape groups dim_out)

/-- Embeds `ResnetBlock(dim, dim_out, groups)`: two blocks plus a residual
1x1 conv (identity when `dim = dim_out`); the final addition requires the
two branches to agree. -/
def resnetBlockShape (dim dim_out groups : ℕ) (s : Shape) : Option Shape :=
  (blockShape dim dim_out groups s).bind (fun h1 =>
    (blockShape dim_out dim_out groups h1).bind (fun h2 =>
      (if dim ≠ dim_out then conv2dShape dim dim_out 1 0 s else some s).bind (fun r =>
        if r = h2 then some h2 else none)))

/-- Embeds `Attention(dim)` (heads 4, head dim 32): 1x1 conv to the stacked
q,k,v channels, attention over spatial positions, 1x1 conv back to `dim`. -/
def attentionShape (dim : ℕ) (s : Shape) : Option Shape :=
  (conv2dShape dim (32 * 4 * 3) 1 0 s).bind (fun s1 =>
    conv2dShape (32 * 4) dim 1 0 ⟨s1.b, 32 * 4, s1.h, s1.w⟩)

/-- Embeds `Residual(PreNorm(dim, Attention(dim)))`: group norm with one
group, attention, then addition with the input. -/
def attnBlockShape (dim : ℕ) (s : Shape) : Option Shape :=
  ((groupNormShape 1 dim s).bind (attentionShape dim)).bind
    (fun s' => if s' = s then some s else none)

/-- Embeds `Downsample(dim, dim_out)`: pixel-unshuffle rearrange (requires
even spatial sizes) followed by a 1x1 conv from `dim * 4` channels. -/
def downsampleShape (dim dim_out : ℕ) (s : Shape) : Option Shape :=
  if s.h % 2 = 0 ∧ s.w % 2 = 0 then
    conv2dShape (dim * 4) dim_out 1 0 ⟨s.b, s.c * 4, s.h / 2, s.w / 2⟩
  else none

/-- Embeds `Upsample(dim, dim_out)`: nearest-neighbour doubling followed by a
3x3 conv with padding 1. -/
def upsampleShape (dim dim_out : ℕ) (s : Shape) : Option Shape :=
  conv2dShape dim dim_out 3 1 ⟨s.b, s.c, 2 * s.h, 2 * s.w⟩

/-- Embeds `torch.cat((x, y), dim=1)`: equal batch and spatial sizes, summed
channels. -/
def catShape (s1 s2 : Shape) : Option Shape :=
  if s1.b = s2.b ∧ s1.h = s2.h ∧ s1.w = s2.w then
    some ⟨s1.b, s1.c + s2.c, s1.h, s1.w⟩
  else none

/-- Embeds the encoder loop of `Unet.forward` over the `in_out` stages,
threading the skip-connection stack (most recent first): each stage is two
resnet blocks (each output pushed), attention, and a downsample (3x3 conv at
the last stage). -/
def downsShape (groups : ℕ) : List (ℕ × ℕ) → Shape → List Shape → Option (Shape × List Shape)
  | [], s, st => some (s, st)
  | (di, dout) :: rest, s, st =>
    (resnetBlockShape di di groups s).bind (fun a1 =>
      (resnetBlockShape di di groups a1).bind (fun a2' =>
        (attnBlockShape di a2').bind (fun a2 =>
          (if rest.isEmpty then conv2dShape di dout 3 1 a2
           else downsampleShape di dout a2).bind (fun s4 =>
            downsShape groups rest s4 (a2 :: a1 :: st)))))

/-- Popping `h.pop()` from the skip stack: fails on an empty stack. -/
def headTail : List Shape → Option (Shape × List Shape)
  | [] => none
  | k :: st => some (k, st)

/-- Embeds the decoder loop of `Unet.forward`, which visits the `in_out`
stages in reverse: the recursion first processes the tail (visited earlier),
then the head; `isTop` marks the head of the original list, whose stage ends
in a 3x3 conv instead of an upsample.  Each stage pops two skips, each
concatenated before a resnet block, then attention and the upsample. -/
def upsShape (groups : ℕ) : Bool → List (ℕ × ℕ) → Shape → List Shape → Option (Shape × List Shape)
  | _, [], s, st => some (s, st)
  | isTop, (di, dout) :: rest, s, st =>
    (upsShape groups false rest s st).bind (fun p =>
      (headTail p.2).bind (fun kt1 =>
        (catShape p.1 kt1.1).bind (fun c1 =>
          (resnetBlockShape (dout + di) dout groups c1).bind (fun r1 =>
            (headTail kt1.2).bind (fun kt2 =>
              (catShape r1 kt2.1).bind (fun c2 =>
                (resnetBlockShape (dout + di) dout groups c2).bind (fun r2 =>
                  (attnBlockShape dout r2).bind (fun a =>
                    (if isTop then conv2dShape dout di 3 1 a
                     else upsampleShape dout di a).bind (fun o =>
                      some (o, kt2.2))))))))))

/-- Embeds the bottleneck: resnet block, attention, resnet block at `mid_dim`. -/
def midShape (groups mid_dim : ℕ) (s : Shape) : Option Shape :=
  (resnetBlockShape mid_dim mid_dim groups s).bind (fun s1 =>
    (attnBlockShape mid_dim s1).bind (fun s2 =>
      resnetBlockShape mid_dim mid_dim groups s2))

/-- Constructor arguments of `Unet.__init__`, with the notebook's defaults. -/
structure UnetConfig where
  dim : ℕ
  init_dim : Option ℕ := none
  out_dim : Option ℕ := none
  dim_mults : List ℕ := [1, 2, 4, 8]
  channels : ℕ := 3
  self_condition : Bool := false
  resnet_block_groups : ℕ := 4
deriving DecidableEq

/-- Embeds `dims = [init_dim, *map(lambda m: dim * m, dim_mults)]`. -/
def unetDims (cfg : UnetConfig) : List ℕ :=
  (cfg.init_dim.getD cfg.dim) :: cfg.dim_mults.map (fun m => cfg.dim * m)

/-- Embeds `in_out = list(zip(dims[:-1], dims[1:]))`. -/
def unetInOut (cfg : UnetConfig) : List (ℕ × ℕ) :=
  (unetDims cfg).zip (unetDims cfg).tail

/-- Embeds `Unet.forward(x, time, x_self_cond)` at shape level: optional
self-conditioning concatenation, 1x1 init conv, encoder stages, bottleneck,
decoder stages, concatenation with the residual copy, final resnet block and
1x1 projection to `out_dim`. -/
def unetForwardShape (cfg : UnetConfig) (s : Shape) (sc : Option Shape) : Option Shape :=
  let input_channels := cfg.channels * (if cfg.self_condition then 2 else 1)
  let init_dim := cfg.init_dim.getD cfg.dim
  let groups := cfg.resnet_block_groups
  let mid_dim := ((unetDims cfg).getLast?).getD 0
  let x0 : Option Shape :=
    if cfg.self_condition then
      (match sc with
       | some ssc => catShape ssc s
       | none => catShape s s)
    else some s
  x0.bind (fun xs =>
    (conv2dShape input_channels init_dim 1 0 xs).bind (fun s1 =>
      (downsShape groups (unetInOut cfg) s1 []).bind (fun p =>
        (midShape groups mid_dim p.1).bind (fun smid2 =>
          (upsShape groups true (unetInOut cfg) smid2 p.2).bind (fun q =>
            (catShape q.1 s1).bind (fun scat =>
              (resnetBlockShape (cfg.dim * 2) cfg.dim groups scat).bind (fun sf =>
                conv2dShape cfg.dim (cfg.out_dim.getD cfg.channels) 1 0 sf)))))))

/-! Characterisation lemmas: what a successful layer application says about
its input and output shapes. -/

theorem conv2dShape_some {ic oc k p : ℕ} {s s' : Shape}
    (h : conv2dShape ic oc k p s = some s') :
    s.c = ic ∧ k ≤ s.h + 2 * p ∧ k ≤ s.w + 2 * p ∧
      s' = ⟨s.b, oc, s.h + 2 * p - k + 1, s.w + 2 * p - k + 1⟩ := by
  unfold conv2dShape at h
  by_cases hc : s.c = ic ∧ k ≤ s.h + 2 * p ∧ k ≤ s.w + 2 * p
  · rw [if_pos hc] at h
    exact ⟨hc.1, hc.2.1, hc.2.2, (Option.some.inj h).symm⟩
  · rw [if_neg hc] at h
    cases h

theorem conv3Shape_some {ic oc : ℕ} {s s' : Shape}
    (h : conv2dShape ic oc 3 1 s = some s') :
    s.c = ic ∧ 1 ≤ s.h ∧ 1 ≤ s.w ∧ s' = ⟨s.b, oc, s.h, s.w⟩ := by
  obtain ⟨h1, h2, h3, h4⟩ := conv2dShape_some h
  refine ⟨h1, by omega, by omega, ?_⟩
  rw [h4]
  congr 1 <;> omega

theorem conv1Shape_some {ic oc : ℕ} {s s' : Shape}
    (h : conv2dShape ic oc 1 0 s = some s') :
    s.c = ic ∧ 1 ≤ s.h ∧ 1 ≤ s.w ∧ s' = ⟨s.b, oc, s.h, s.w⟩ := by
  obtain ⟨h1, h2, h3, h4⟩ := conv2dShape_some h
  refine ⟨h1, by omega, by omega, ?_⟩
  rw [h4]
  congr 1 <;> omega

theorem groupNormShape_some {g ch : ℕ} {s s' : Shape}
    (h : groupNormShape g ch s = some s') :
    s.c = ch ∧ 0 < g ∧ ch % g = 0 ∧ s' = s := by
  unfold groupNormShape at h
  by_cases hc : s.c = ch ∧ 0 < g ∧ ch % g = 0
  · rw [if_pos hc] at h
    exact ⟨hc.1, hc.2.1, hc.2.2, (Option.some.inj h).symm⟩
  · rw [if_neg hc] at h
    cases h

theorem blockShape_some {d d' g : ℕ} {s s' : Shape}
    (h : blockShape d d' g s = some s') :
    s.c = d ∧ 0 < g ∧ d' % g = 0 ∧ 1 ≤ s.h ∧ 1 ≤ s.w ∧ s' = ⟨s.b, d', s.h, s.w⟩ := by
  unfold blockShape at h
  cases hcv : conv2dShape d d' 3 1 s with
  | none => rw [hcv] at h; cases h
  | some m =>
    rw [hcv] at h
    simp only [Option.some_bind'] at h
    obtain ⟨hc1, hc2, hc3, hc4⟩ := conv3Shape_some hcv
    obtain ⟨hg1, hg2, hg3, hg4⟩ := groupNormShape_some h
    exact ⟨hc1, hg2, hg3, hc2, hc3, by rw [hg4, hc4]⟩

theorem resnetBlockShape_some {d d' g : ℕ} {s s' : Shape}
    (h : resnetBlockShape d d' g s = some s') :
    s.c = d ∧ 0 < g ∧ d' % g = 0 ∧ 1 ≤ s.h ∧ 1 ≤ s.w ∧ s' = ⟨s.b, d', s.h, s.w⟩ := by
  unfold resnetBlockShape at h
  cases hb1 : blockShape d d' g s with
  | none => rw [hb1] at h; cases h
  | some m1 =>
    rw [hb1] at h
    simp only [Option.some_bind'] at h
    cases hb2 : blockShape d' d' g m1 with
    | none => rw [hb2] at h; cases h
    | some m2 =>
      rw [hb2] at h
      simp only [Option.some_bind'] at h
      cases hr : (if d ≠ d' then conv2dShape d d' 1 0 s else some s) with
      | none => rw [hr] at h; cases h
      | some r =>
        rw [hr] at h
        simp only [Option.some_bind'] at h
        obtain ⟨h11, h12, h13, h14, h15, h16⟩ := blockShape_some hb1
        obtain ⟨h21, h22, h23, h24, h25, h26⟩ := blockShape_some hb2
        by_cases hre : r = m2
        · rw [if_pos hre] at h
          refine ⟨h11, h12, h13, h14, h15, ?_⟩
          have hs' : s' = m2 := (Option.some.inj h).symm
          rw [hs', h26, h16]
        · rw [if_neg hre] at h; cases h

theorem attentionShape_some {d : ℕ} {s s' : Shape}
    (h : attentionShape d s = some s') :
    s.c = d ∧ 1 ≤ s.h ∧ 1 ≤ s.w ∧ s' = ⟨s.b, d, s.h, s.w⟩ := by
  unfold attentionShape at h
  cases hcv : conv2dShape d (32 * 4 * 3) 1 0 s with
  | none => rw [hcv] at h; cases h
  | some m =>
    rw [hcv] at h
    simp only [Option.some_bind'] at h
    obtain ⟨h1, h2, h3, h4⟩ := conv1Shape_some hcv
    obtain ⟨g1, g2, g3, g4⟩ := conv1Shape_some h
    refine ⟨h1, h2, h3, ?_⟩
    rw [g4, h4]

theorem attnBlockShape_some {d : ℕ} {s s' : Shape}
    (h : attnBlockShape d s = some s') :
    s.c = d ∧ 1 ≤ s.h ∧ 1 ≤ s.w ∧ s' = s := by
  unfold attnBlockShape at h
  cases hgn : groupNormShape 1 d s with
  | none => rw [hgn] at h; cases h
  | some m =>
    rw [hgn] at h
    simp only [Option.some_bind'] at h
    cases hat : attentionShape d m with
    | none => rw [hat] at h; cases h
    | some a =>
      rw [hat] at h
      simp only [Option.some_bind'] at h
      obtain ⟨n1, _, _, n4⟩ := groupNormShape_some hgn
      obtain ⟨a1, a2, a3, _⟩ := attentionShape_some hat
      by_cases hae : a = s
      · rw [if_pos hae] at h
        subst n4
        exact ⟨n1, a2, a3, (Option.some.inj h).symm⟩
      · rw [if_neg hae] at h; cases h

theorem downsampleShape_some {d d' : ℕ} {s s' : Shape}
    (h : downsampleShape d d' s = some s') :
    s.c = d ∧ s.h % 2 = 0 ∧ s.w % 2 = 0 ∧ 2 ≤ s.h ∧ 2 ≤ s.w ∧
      s' = ⟨s.b, d', s.h / 2, s.w / 2⟩ := by
  unfold downsampleShape at h
  by_cases hc : s.h % 2 = 0 ∧ s.w % 2 = 0
  · rw [if_pos hc] at h
    obtain ⟨h1, h2, h3, h4⟩ := conv1Shape_some h
    simp only at h1 h2 h3 h4
    have hcd : s.c = d := by omega
    refine ⟨hcd, hc.1, hc.2, by omega, by omega, by rw [h4]⟩
  · rw [if_neg hc] at h; cases h

theorem upsampleShape_some {d d' : ℕ} {s s' : Shape}
    (h : upsampleShape d d' s = some s') :
    s.c = d ∧ 1 ≤ s.h ∧ 1 ≤ s.w ∧ s' = ⟨s.b, d', 2 * s.h, 2 * s.w⟩ := by
  unfold upsampleShape at h
  obtain ⟨h1, h2, h3, h4⟩ := conv3Shape_some h
  simp only at h1 h2 h3 h4
  exact ⟨h1, by omega, by omega, by rw [h4]⟩

theorem catShape_some {s1 s2 s' : Shape}
    (h : catShape s1 s2 = some s') :
    s1.b = s2.b ∧ s1.h = s2.h ∧ s1.w = s2.w ∧
      s' = ⟨s1.b, s1.c + s2.c, s1.h, s1.w⟩ := by
  unfold catShape at h
  by_cases hc : s1.b = s2.b ∧ s1.h = s2.h ∧ s1.w = s2.w
  · rw [if_pos hc] at h
    exact ⟨hc.1, hc.2.1, hc.2.2, (Option.some.inj h).symm⟩
  · rw [if_neg hc] at h; cases h

theorem shape_eta (s : Shape) (c' : ℕ) (h : s.c = c') :
    (⟨s.b, c', s.h, s.w⟩ : Shape) = s := by
  cases s
  simp only at h
  rw [← h]

theorem midShape_some {g md : ℕ} {s s' : Shape}
    (h : midShape g md s = some s') :
    s.c = md ∧ 0 < g ∧ md % g = 0 ∧ 1 ≤ s.h ∧ 1 ≤ s.w ∧ s' = s := by
  unfold midShape at h
  cases hr1 : resnetBlockShape md md g s with
  | none => rw [hr1] at h; cases h
  | some m1 =>
    rw [hr1] at h
    simp only [Option.some_bind'] at h
    cases hat : attnBlockShape md m1 with
    | none => rw [hat] at h; cases h
    | some m2 =>
      rw [hat] at h
      simp only [Option.some_bind'] at h
      obtain ⟨r1, r2, r3, r4, r5, r6⟩ := resnetBlockShape_some hr1
      obtain ⟨a1, _, _, a4⟩ := attnBlockShape_some hat
      obtain ⟨q1, _, _, _, _, q6⟩ := resnetBlockShape_some h
      have hm1 : m1 = s := by rw [r6]; exact shape_eta s md r1
      subst a4
      refine ⟨r1, r2, r3, r4, r5, ?_⟩
      rw [q6, hm1]
      exact shape_eta s md r1

/-! Evaluation lemmas: successful layer applications, computed forwards. -/

theorem conv2dShape_eval (ic oc k p : ℕ) (s : Shape) (hc : s.c = ic)
    (hh : k ≤ s.h + 2 * p) (hw : k ≤ s.w + 2 * p) :
    conv2dShape ic oc k p s
      = some ⟨s.b, oc, s.h + 2 * p - k + 1, s.w + 2 * p - k + 1⟩ := by
  unfold conv2dShape
  rw [if_pos ⟨hc, hh, hw⟩]

theorem conv3Shape_eval (s : Shape) (oc : ℕ) (hh : 1 ≤ s.h) (hw : 1 ≤ s.w) :
    conv2dShape s.c oc 3 1 s = some ⟨s.b, oc, s.h, s.w⟩ := by
  have e1 : s.h + 2 * 1 - 3 + 1 = s.h := by omega
  have e2 : s.w + 2 * 1 - 3 + 1 = s.w := by omega
  rw [conv2dShape_eval s.c oc 3 1 s rfl (by omega) (by omega), e1, e2]

theorem conv1Shape_eval (s : Shape) (oc : ℕ) (hh : 1 ≤ s.h) (hw : 1 ≤ s.w) :
    conv2dShape s.c oc 1 0 s = some ⟨s.b, oc, s.h, s.w⟩ := by
  have e1 : s.h + 2 * 0 - 1 + 1 = s.h := by omega
  have e2 : s.w + 2 * 0 - 1 + 1 = s.w := by omega
  rw [conv2dShape_eval s.c oc 1 0 s rfl (by omega) (by omega), e1, e2]

theorem groupNormShape_eval (g ch : ℕ) (s : Shape) (hc : s.c = ch)
    (hg : 0 < g) (hd : ch % g = 0) : groupNormShape g ch s = some s := by
  unfold groupNormShape
  rw [if_pos ⟨hc, hg, hd⟩]

theorem blockShape_eval (d d' g : ℕ) (s : Shape) (hc : s.c = d) (hg : 0 < g)
    (hd : d' % g = 0) (hh : 1 ≤ s.h) (hw : 1 ≤ s.w) :
    blockShape d d' g s = some ⟨s.b, d', s.h, s.w⟩ := by
  unfold blockShape
  rw [← hc, conv3Shape_eval s d' hh hw]
  simp only [Option.some_bind']
  exact groupNormShape_eval g d' _ rfl hg hd

theorem resnetBlockShape_eval (d d' g : ℕ) (s : Shape) (hc : s.c = d) (hg : 0 < g)
    (hd : d' % g = 0) (hh : 1 ≤ s.h) (hw : 1 ≤ s.w) :
    resnetBlockShape d d' g s = some ⟨s.b, d', s.h, s.w⟩ := by
  unfold resnetBlockShape
  rw [blockShape_eval d d' g s hc hg hd hh hw]
  simp only [Option.some_bind']
  rw [blockShape_eval d' d' g ⟨s.b, d', s.h, s.w⟩ rfl hg hd hh hw]
  simp only [Option.some_bind']
  by_cases hdd : d ≠ d'
  · rw [if_pos hdd, ← hc, conv1Shape_eval s d' hh hw]
    simp only [Option.some_bind']
    simp
  · rw [if_neg hdd]
    simp only [Option.some_bind']
    push_neg at hdd
    rw [if_pos (shape_eta s d' (hc.trans hdd)).symm]

theorem attnBlockShape_eval (d : ℕ) (s : Shape) (hc : s.c = d)
    (hh : 1 ≤ s.h) (hw : 1 ≤ s.w) : attnBlockShape d s = some s := by
  have h1 : conv2dShape d (32 * 4 * 3) 1 0 s = some ⟨s.b, 32 * 4 * 3, s.h, s.w⟩ := by
    rw [← hc]; exact conv1Shape_eval s _ hh hw
  have h2 : conv2dShape (32 * 4) d 1 0 ⟨s.b, 32 * 4, s.h, s.w⟩
      = some ⟨s.b, d, s.h, s.w⟩ :=
    conv1Shape_eval (⟨s.b, 32 * 4, s.h, s.w⟩ : Shape) d hh hw
  unfold attnBlockShape attentionShape
  rw [groupNormShape_eval 1 d s hc Nat.one_pos (Nat.mod_one d)]
  simp only [Option.some_bind']
  rw [h1]
  simp only [Option.some_bind']
  rw [h2]
  simp only [Option.some_bind']
  rw [if_pos (shape_eta s d hc)]

theorem downsampleShape_eval (d d' : ℕ) (s : Shape) (hc : s.c = d)
    (he : s.h % 2 = 0) (we : s.w % 2 = 0) (hh : 2 ≤ s.h) (hw : 2 ≤ s.w) :
    downsampleShape d d' s = some ⟨s.b, d', s.h / 2, s.w / 2⟩ := by
  unfold downsampleShape
  rw [if_pos ⟨he, we⟩]
  have hcv := conv2dShape_eval (d * 4) d' 1 0 ⟨s.b, s.c * 4, s.h / 2, s.w / 2⟩
    (by show s.c * 4 = d * 4; rw [hc])
    (by show (1 : ℕ) ≤ s.h / 2 + 2 * 0; omega)
    (by show (1 : ℕ) ≤ s.w / 2 + 2 * 0; omega)
  rw [hcv]
  simp only [Option.some.injEq, Shape.mk.injEq, eq_self_iff_true, true_and, and_true]
  omega

theorem upsampleShape_eval (d d' : ℕ) (s : Shape) (hc : s.c = d)
    (hh : 1 ≤ s.h) (hw : 1 ≤ s.w) :
    upsampleShape d d' s = some ⟨s.b, d', 2 * s.h, 2 * s.w⟩ := by
  unfold upsampleShape
  have hcv := conv2dShape_eval d d' 3 1 ⟨s.b, s.c, 2 * s.h, 2 * s.w⟩
    (by show s.c = d; exact hc)
    (by show (3 : ℕ) ≤ 2 * s.h + 2 * 1; omega)
    (by show (3 : ℕ) ≤ 2 * s.w + 2 * 1; omega)
  rw [hcv]
  simp only [Option.some.injEq, Shape.mk.injEq, eq_self_iff_true, true_and, and_true]
  omega

theorem catShape_eval (s1 s2 : Shape) (hb : s1.b = s2.b) (hh : s1.h = s2.h)
    (hw : s1.w = s2.w) :
    catShape s1 s2 = some ⟨s1.b, s1.c + s2.c, s1.h, s1.w⟩ := by
  unfold catShape
  rw [if_pos ⟨hb, hh, hw⟩]

theorem headTail_cons (k : Shape) (st : List Shape) :
    headTail (k :: st) = some (k, st) := rfl

theorem downsShape_nil (g : ℕ) (s : Shape) (st : List Shape) :
    downsShape g [] s st = some (s, st) := rfl

theorem upsShape_nil (g : ℕ) (tf : Bool) (s : Shape) (st : List Shape) :
    upsShape g tf [] s st = some (s, st) := rfl

/-- One encoder stage, characterised: a successful stage forces the entry
shape's channels, pushes two copies of the entry shape, and continues either
with a spatially preserved conv (last stage) or an exact halving. -/
theorem downsShape_cons {g di dout : ℕ} {rest : List (ℕ × ℕ)} {s : Shape}
    {st : List Shape} {out : Shape × List Shape}
    (h : downsShape g ((di, dout) :: rest) s st = some out) :
    s.c = di ∧ 0 < g ∧ di % g = 0 ∧ 1 ≤ s.h ∧ 1 ≤ s.w ∧
      ((rest = [] ∧
          downsShape g rest ⟨s.b, dout, s.h, s.w⟩ (s :: s :: st) = some out) ∨
        (rest ≠ [] ∧ s.h % 2 = 0 ∧ s.w % 2 = 0 ∧ 2 ≤ s.h ∧ 2 ≤ s.w ∧
          downsShape g rest ⟨s.b, dout, s.h / 2, s.w / 2⟩ (s :: s :: st) = some out)) := by
  simp only [downsShape] at h
  cases hr1 : resnetBlockShape di di g s with
  | none => rw [hr1] at h; cases h
  | some a1 =>
    rw [hr1] at h
    simp only [Option.some_bind'] at h
    obtain ⟨e1, e2, e3, e4, e5, e6⟩ := resnetBlockShape_some hr1
    have ha1 : a1 = s := by rw [e6]; exact shape_eta s di e1
    subst ha1
    rw [hr1] at h
    simp only [Option.some_bind'] at h
    cases hat : attnBlockShape di a1 with
    | none => rw [hat] at h; cases h
    | some a2 =>
      rw [hat] at h
      simp only [Option.some_bind'] at h
      have ha2 : a2 = a1 := (attnBlockShape_some hat).2.2.2
      subst ha2
      refine ⟨e1, e2, e3, e4, e5, ?_⟩
      cases hrest : rest with
      | nil =>
        subst hrest
        rw [if_pos (by rfl)] at h
        cases hcv : conv2dShape di dout 3 1 a2 with
        | none => rw [hcv] at h; cases h
        | some s4 =>
          rw [hcv] at h
          simp only [Option.some_bind'] at h
          obtain ⟨c1, c2, c3, c4⟩ := conv3Shape_some hcv
          refine Or.inl ⟨rfl, ?_⟩
          rw [downsShape_nil, ← c4]
          rw [downsShape_nil] at h
          exact h
      | cons q rest2 =>
        subst hrest
        rw [if_neg (by simp)] at h
        cases hds : downsampleShape di dout a2 with
        | none => rw [hds] at h; cases h
        | some s4 =>
          rw [hds] at h
          simp only [Option.some_bind'] at h
          obtain ⟨d1, d2, d3, d4, d5, d6⟩ := downsampleShape_some hds
          refine Or.inr ⟨by simp, d2, d3, d4, d5, ?_⟩
          rw [← d6]
          exact h

/-- One inner decoder stage computed forwards: popping two skips equal to the
stage's encoder entry shape and ending in the doubling upsample. -/
theorem ups_step (g di dout : ℕ) (s : Shape) (st : List Shape)
    (rest : List (ℕ × ℕ)) (smid2 : Shape) (st' : List Shape)
    (hinner : upsShape g false rest smid2 st'
      = some (⟨s.b, dout, s.h, s.w⟩, s :: s :: st))
    (hcs : s.c = di) (hg : 0 < g) (hdg : dout % g = 0)
    (hh : 1 ≤ s.h) (hw : 1 ≤ s.w) :
    upsShape g false ((di, dout) :: rest) smid2 st'
      = some (⟨s.b, s.c, 2 * s.h, 2 * s.w⟩, st) := by
  simp only [upsShape]
  rw [hinner]
  simp only [Option.some_bind', headTail_cons]
  rw [catShape_eval ⟨s.b, dout, s.h, s.w⟩ s rfl rfl rfl]
  simp only [Option.some_bind']
  rw [resnetBlockShape_eval (dout + di) dout g ⟨s.b, dout + s.c, s.h, s.w⟩
      (by show dout + s.c = dout + di; rw [hcs]) hg hdg hh hw]
  simp only [Option.some_bind', headTail_cons]
  rw [catShape_eval ⟨s.b, dout, s.h, s.w⟩ s rfl rfl rfl]
  simp only [Option.some_bind']
  rw [resnetBlockShape_eval (dout + di) dout g ⟨s.b, dout + s.c, s.h, s.w⟩
      (by show dout + s.c = dout + di; rw [hcs]) hg hdg hh hw]
  simp only [Option.some_bind']
  rw [attnBlockShape_eval dout ⟨s.b, dout, s.h, s.w⟩ rfl hh hw]
  simp only [Option.some_bind']
  rw [if_neg (by simp)]
  rw [upsampleShape_eval dout di ⟨s.b, dout, s.h, s.w⟩ rfl hh hw]
  simp only [Option.some_bind']
  rw [hcs]

/-- The outermost decoder stage, which ends in a spatially preserving 3x3
conv rather than an upsample. -/
theorem ups_step_top (g di dout : ℕ) (s : Shape) (st : List Shape)
    (rest : List (ℕ × ℕ)) (smid2 : Shape) (st' : List Shape)
    (hinner : upsShape g false rest smid2 st'
      = some (⟨s.b, dout, s.h, s.w⟩, s :: s :: st))
    (hcs : s.c = di) (hg : 0 < g) (hdg : dout % g = 0)
    (hh : 1 ≤ s.h) (hw : 1 ≤ s.w) :
    upsShape g true ((di, dout) :: rest) smid2 st'
      = some (⟨s.b, s.c, s.h, s.w⟩, st) := by
  simp only [upsShape]
  rw [hinner]
  simp only [Option.some_bind', headTail_cons]
  rw [catShape_eval ⟨s.b, dout, s.h, s.w⟩ s rfl rfl rfl]
  simp only [Option.some_bind']
  rw [resnetBlockShape_eval (dout + di) dout g ⟨s.b, dout + s.c, s.h, s.w⟩
      (by show dout + s.c = dout + di; rw [hcs]) hg hdg hh hw]
  simp only [Option.some_bind', headTail_cons]
  rw [catShape_eval ⟨s.b, dout, s.h, s.w⟩ s rfl rfl rfl]
  simp only [Option.some_bind']
  rw [resnetBlockShape_eval (dout + di) dout g ⟨s.b, dout + s.c, s.h, s.w⟩
      (by show dout + s.c = dout + di; rw [hcs]) hg hdg hh hw]
  simp only [Option.some_bind']
  rw [attnBlockShape_eval dout ⟨s.b, dout, s.h, s.w⟩ rfl hh hw]
  simp only [Option.some_bind']
  rw [if_pos trivial]
  have hcv : conv2dShape dout di 3 1 (⟨s.b, dout, s.h, s.w⟩ : Shape)
      = some ⟨s.b, di, s.h, s.w⟩ :=
    conv3Shape_eval (⟨s.b, dout, s.h, s.w⟩ : Shape) di hh hw
  rw [hcv]
  simp only [Option.some_bind']
  rw [hcs]

/-- Roundtrip through the inner stages: the encoder stages followed by the
bottleneck and the matching decoder stages return the doubled entry shape and
restore the skip stack. -/
theorem down_mid_up (g md : ℕ) (L : List (ℕ × ℕ)) :
    ∀ (s : Shape) (st : List Shape) (smid : Shape) (st' : List Shape)
      (smid2 : Shape),
      L ≠ [] →
      downsShape g L s st = some (smid, st') →
      midShape g md smid = some smid2 →
      upsShape g false L smid2 st' = some (⟨s.b, s.c, 2 * s.h, 2 * s.w⟩, st) := by
  induction L with
  | nil => intro s st smid st' smid2 hne _ _; exact absurd rfl hne
  | cons p rest ih =>
    obtain ⟨di, dout⟩ := p
    intro s st smid st' smid2 _ hdown hmid
    obtain ⟨e1, e2, e3, e4, e5, hbr⟩ := downsShape_cons hdown
    rcases hbr with ⟨hrest, hcont⟩ | ⟨hrest, heh, hew, hh2, hw2, hcont⟩
    · subst hrest
      rw [downsShape_nil] at hcont
      have hp := Option.some.inj hcont
      have h1 : (⟨s.b, dout, s.h, s.w⟩ : Shape) = smid := congrArg Prod.fst hp
      have h2 : (s :: s :: st : List Shape) = st' := congrArg Prod.snd hp
      subst h1
      subst h2
      obtain ⟨m1, _, m3, _, _, m6⟩ := midShape_some hmid
      have hm1 : dout = md := m1
      have hdm : dout % g = 0 := by rw [hm1]; exact m3
      subst m6
      exact ups_step g di dout s st [] _ _ (by rw [upsShape_nil]) e1 e2 hdm e4 e5
    · obtain ⟨q, rest2, rfl⟩ := List.exists_cons_of_ne_nil hrest
      obtain ⟨qd, qdout⟩ := q
      have hentry := downsShape_cons hcont
      have hq1 : dout = qd := hentry.1
      have hdm : dout % g = 0 := by rw [hq1]; exact hentry.2.2.1
      have hinner := ih ⟨s.b, dout, s.h / 2, s.w / 2⟩ (s :: s :: st) smid st' smid2
        (by simp) hcont hmid
      have hinner2 : upsShape g false ((qd, qdout) :: rest2) smid2 st'
          = some (⟨s.b, dout, s.h, s.w⟩, s :: s :: st) := by
        rw [hinner]
        simp only [Option.some.injEq, Prod.mk.injEq, Shape.mk.injEq,
          eq_self_iff_true, true_and, and_true]
        omega
      exact ups_step g di dout s st ((qd, qdout) :: rest2) smid2 st' hinner2
        e1 e2 hdm e4 e5

/-- Roundtrip through the whole stage list, with the outermost decoder stage
ending in the spatially preserving conv: the output restores the encoder
entry shape exactly. -/
theorem down_mid_up_top (g md : ℕ) (p : ℕ × ℕ) (rest : List (ℕ × ℕ)) :
    ∀ (s : Shape) (st : List Shape) (smid : Shape) (st' : List Shape)
      (smid2 : Shape),
      downsShape g (p :: rest) s st = some (smid, st') →
      midShape g md smid = some smid2 →
      upsShape g true (p :: rest) smid2 st' = some (⟨s.b, s.c, s.h, s.w⟩, st) := by
  obtain ⟨di, dout⟩ := p
  intro s st smid st' smid2 hdown hmid
  obtain ⟨e1, e2, e3, e4, e5, hbr⟩ := downsShape_cons hdown
  rcases hbr with ⟨hrest, hcont⟩ | ⟨hrest, heh, hew, hh2, hw2, hcont⟩
  · subst hrest
    rw [downsShape_nil] at hcont
    have hp := Option.some.inj hcont
    have h1 : (⟨s.b, dout, s.h, s.w⟩ : Shape) = smid := congrArg Prod.fst hp
    have h2 : (s :: s :: st : List Shape) = st' := congrArg Prod.snd hp
    subst h1
    subst h2
    obtain ⟨m1, _, m3, _, _, m6⟩ := midShape_some hmid
    have hm1 : dout = md := m1
    have hdm : dout % g = 0 := by rw [hm1]; exact m3
    subst m6
    exact ups_step_top g di dout s st [] _ _ (by rw [upsShape_nil]) e1 e2 hdm e4 e5
  · obtain ⟨q, rest2, rfl⟩ := List.exists_cons_of_ne_nil hrest
    obtain ⟨qd, qdout⟩ := q
    have hentry := downsShape_cons hcont
    have hq1 : dout = qd := hentry.1
    have hdm : dout % g = 0 := by rw [hq1]; exact hentry.2.2.1
    have hinner := down_mid_up g md ((qd, qdout) :: rest2)
      ⟨s.b, dout, s.h / 2, s.w / 2⟩ (s :: s :: st) smid st' smid2
      (by simp) hcont hmid
    have hinner2 : upsShape g false ((qd, qdout) :: rest2) smid2 st'
        = some (⟨s.b, dout, s.h, s.w⟩, s :: s :: st) := by
      rw [hinner]
      simp only [Option.some.injEq, Prod.mk.injEq, Shape.mk.injEq,
        eq_self_iff_true, true_and, and_true]
      omega
    exact ups_step_top g di dout s st ((qd, qdout) :: rest2) smid2 st' hinner2
      e1 e2 hdm e4 e5

/-- The final resnet block and 1x1 projection: a success pins the output to
the input's batch and spatial sizes with `outc` channels. -/
theorem unet_final {g dim outc : ℕ} {X out : Shape}
    (h : (resnetBlockShape (dim * 2) dim g X).bind
        (fun sf => conv2dShape dim outc 1 0 sf) = some out) :
    out = ⟨X.b, outc, X.h, X.w⟩ := by
  cases hrn : resnetBlockShape (dim * 2) dim g X with
  | none => rw [hrn] at h; cases h
  | some sf =>
    rw [hrn] at h
    simp only [Option.some_bind'] at h
    obtain ⟨_, _, _, _, _, r6⟩ := resnetBlockShape_some hrn
    obtain ⟨_, _, _, c4⟩ := conv1Shape_some h
    rw [c4, r6]

/-- The whole U-Net forward pass after the init conv preserves batch and
spatial sizes and outputs `outc` channels. -/
theorem unet_after_init {g md dim outc : ℕ} {io : List (ℕ × ℕ)} {s1 out : Shape}
    (h : (downsShape g io s1 []).bind (fun p =>
          (midShape g md p.1).bind (fun smid2 =>
            (upsShape g true io smid2 p.2).bind (fun q =>
              (catShape q.1 s1).bind (fun scat =>
                (resnetBlockShape (dim * 2) dim g scat).bind (fun sf =>
                  conv2dShape dim outc 1 0 sf))))) = some out) :
    out = ⟨s1.b, outc, s1.h, s1.w⟩ := by
  cases hio : io with
  | nil =>
    rw [hio] at h
    rw [downsShape_nil] at h
    simp only [Option.some_bind'] at h
    cases hm : midShape g md s1 with
    | none => rw [hm] at h; cases h
    | some m2 =>
      rw [hm] at h
      simp only [Option.some_bind'] at h
      obtain ⟨_, _, _, _, _, m6⟩ := midShape_some hm
      rw [m6] at h
      rw [upsShape_nil] at h
      simp only [Option.some_bind'] at h
      rw [catShape_eval s1 s1 rfl rfl rfl] at h
      simp only [Option.some_bind'] at h
      have hfin := unet_final h
      exact hfin
  | cons p rest =>
    rw [hio] at h
    cases hd : downsShape g (p :: rest) s1 [] with
    | none => rw [hd] at h; cases h
    | some pr =>
      rw [hd] at h
      simp only [Option.some_bind'] at h
      cases hm : midShape g md pr.1 with
      | none => rw [hm] at h; cases h
      | some smid2 =>
        rw [hm] at h
        simp only [Option.some_bind'] at h
        have hups := down_mid_up_top g md p rest s1 [] pr.1 pr.2 smid2 hd hm
        rw [hups] at h
        simp only [Option.some_bind'] at h
        rw [catShape_eval ⟨s1.b, s1.c, s1.h, s1.w⟩ s1 rfl rfl rfl] at h
        simp only [Option.some_bind'] at h
        have hfin := unet_final h
        exact hfin

/-- C7: for every depth configuration and every input accepted by the U-Net
forward pass (with the default `out_dim`, and a self-conditioning image, when
passed, of the input's shape), the output shape equals the input shape — in
particular the spatial height and width are preserved. -/
theorem claim_C7_unet_shape (cfg : UnetConfig) (s : Shape) (sc : Option Shape)
    (out : Shape) (hout : cfg.out_dim = none) (hsc : sc = none ∨ sc = some s)
    (h : unetForwardShape cfg s sc = some out) : out = s := by
  unfold unetForwardShape at h
  rw [hout] at h
  simp only [Option.getD_none] at h
  rcases hsc with rfl | rfl <;>
    cases hflag : cfg.self_condition <;>
      simp only [hflag, Bool.false_eq_true, if_false, if_true, mul_one,
        Option.some_bind'] at h
  · -- sc = none, no self-conditioning
    cases hcv : conv2dShape cfg.channels (cfg.init_dim.getD cfg.dim) 1 0 s with
    | none => rw [hcv] at h; cases h
    | some s1 =>
      rw [hcv] at h
      simp only [Option.some_bind'] at h
      obtain ⟨c1, _, _, c4⟩ := conv1Shape_some hcv
      have hco : out = ⟨s1.b, cfg.channels, s1.h, s1.w⟩ := unet_after_init h
      rw [hco, c4]
      exact shape_eta s cfg.channels c1
  · -- sc = none, self-conditioning on (zeros_like has the input's shape)
    rw [catShape_eval s s rfl rfl rfl] at h
    simp only [Option.some_bind'] at h
    cases hcv : conv2dShape (cfg.channels * 2) (cfg.init_dim.getD cfg.dim) 1 0
        ⟨s.b, s.c + s.c, s.h, s.w⟩ with
    | none => rw [hcv] at h; cases h
    | some s1 =>
      rw [hcv] at h
      simp only [Option.some_bind'] at h
      obtain ⟨c1, _, _, c4⟩ := conv1Shape_some hcv
      have hcc : s.c = cfg.channels := by
        have : s.c + s.c = cfg.channels * 2 := c1
        omega
      have hco : out = ⟨s1.b, cfg.channels, s1.h, s1.w⟩ := unet_after_init h
      rw [hco, c4]
      exact shape_eta s cfg.channels hcc
  · -- sc = some s, no self-conditioning (argument ignored)
    cases hcv : conv2dShape cfg.channels (cfg.init_dim.getD cfg.dim) 1 0 s with
    | none => rw [hcv] at h; cases h
    | some s1 =>
      rw [hcv] at h
      simp only [Option.some_bind'] at h
      obtain ⟨c1, _, _, c4⟩ := conv1Shape_some hcv
      have hco : out = ⟨s1.b, cfg.channels, s1.h, s1.w⟩ := unet_after_init h
      rw [hco, c4]
      exact shape_eta s cfg.channels c1
  · -- sc = some s, self-conditioning with the input's shape
    rw [catShape_eval s s rfl rfl rfl] at h
    simp only [Option.some_bind'] at h
    cases hcv : conv2dShape (cfg.channels * 2) (cfg.init_dim.getD cfg.dim) 1 0
        ⟨s.b, s.c + s.c, s.h, s.w⟩ with
    | none => rw [hcv] at h; cases h
    | some s1 =>
      rw [hcv] at h
      simp only [Option.some_bind'] at h
      obtain ⟨c1, _, _, c4⟩ := conv1Shape_some hcv
      have hcc : s.c = cfg.channels := by
        have : s.c + s.c = cfg.channels * 2 := c1
        omega
      have hco : out = ⟨s1.b, cfg.channels, s1.h, s1.w⟩ := unet_after_init h
      rw [hco, c4]
      exact shape_eta s cfg.channels hcc

/-! Claim theorems. -/

/-- C1: for every clean sample, timestep vector with entries below `T`, and
noise, `q_sample` returns `√(ᾱ_t)·x₀ + √(1−ᾱ_t)·ε` (elementwise, per-batch
broadcast); with `ε = 0` it returns `√(ᾱ_t)·x₀` exactly; and with the noise
argument omitted it uses the ambient standard-normal draw of the same shape.
The output has the same shape as `x₀` by the type of `q_sample`. -/
theorem claim_C1_q_sample (T b n : ℕ) (x_start : Img b n) (t : Fin b → ℕ)
    (eps randn : Img b n) (ht : ∀ i, t i < T) :
    q_sample T x_start t (some eps) randn
        = (fun i j => Real.sqrt ((getE (alphas_cumprod T) (t i) : ℚ) : ℝ) * x_start i j
            + Real.sqrt (1 - ((getE (alphas_cumprod T) (t i) : ℚ) : ℝ)) * eps i j) ∧
      q_sample T x_start t (some (fun _ _ => 0)) randn
        = (fun i j => Real.sqrt ((getE (alphas_cumprod T) (t i) : ℚ) : ℝ) * x_start i j) ∧
      q_sample T x_start t none randn
        = (fun i j => Real.sqrt ((getE (alphas_cumprod T) (t i) : ℚ) : ℝ) * x_start i j
            + Real.sqrt (1 - ((getE (alphas_cumprod T) (t i) : ℚ) : ℝ)) * randn i j) := by
  refine ⟨?_, ?_, ?_⟩ <;> funext i j <;>
    simp [q_sample, getE_sqrt_alphas_cumprod T (t i) (ht i),
      getE_sqrt_one_minus_alphas_cumprod T (t i) (ht i)]

theorem claim_C1_witness :
    (∀ i : Fin 1, (fun (_ : Fin 1) => (0 : ℕ)) i < 2) ∧
      q_sample 2 (fun (_ : Fin 1) (_ : Fin 1) => (1 : ℝ)) (fun (_ : Fin 1) => (0 : ℕ))
          (some (fun (_ : Fin 1) (_ : Fin 1) => (0 : ℝ)))
          (fun (_ : Fin 1) (_ : Fin 1) => (0 : ℝ))
        = (fun (_ : Fin 1) (_ : Fin 1) =>
            Real.sqrt ((getE (alphas_cumprod 2) 0 : ℚ) : ℝ) * 1) :=
  ⟨by decide,
    (claim_C1_q_sample 2 1 1 (fun _ _ => 1) (fun _ => 0) (fun _ _ => 0) (fun _ _ => 0)
      (by decide)).2.1⟩

/-- C3: the schedule is a pure function of `T` (with the fixed endpoints
`0.0001` and `0.02`): the betas form a length-`T` linearly spaced sequence
(first entry `1/10000`, last entry `1/50`, constant consecutive difference),
`alphas = 1 − betas`, `alphas_cumprod` is the running product,
`alphas_cumprod_prev` prepends `1` and shifts, and the square-root and
reciprocal vectors are the corresponding elementwise transforms. -/
theorem claim_C3_schedule (T t : ℕ) (ht : t < T) :
    (linear_beta_schedule T).length = T ∧
      (alphas_cumprod T).length = T ∧
      (alphas_cumprod_prev T).length = T ∧
      getE (linear_beta_schedule T) 0 = 1 / 10000 ∧
      (2 ≤ T → getE (linear_beta_schedule T) (T - 1) = 1 / 50) ∧
      (t + 1 < T →
        getE (linear_beta_schedule T) (t + 1) - getE (linear_beta_schedule T) t
          = (1 / 50 - 1 / 10000) / ((T : ℚ) - 1)) ∧
      getE (alphas T) t = 1 - getE (linear_beta_schedule T) t ∧
      getE (alphas_cumprod T) t = ∏ j ∈ Finset.range (t + 1), getE (alphas T) j ∧
      getE (alphas_cumprod_prev T) 0 = 1 ∧
      (t + 1 < T → getE (alphas_cumprod_prev T) (t + 1) = getE (alphas_cumprod T) t) ∧
      getE (sqrt_recip_alphas T) t = Real.sqrt (1 / ((getE (alphas T) t : ℚ) : ℝ)) ∧
      getE (sqrt_alphas_cumprod T) t = Real.sqrt ((getE (alphas_cumprod T) t : ℚ) : ℝ) ∧
      getE (sqrt_one_minus_alphas_cumprod T) t
        = Real.sqrt (1 - ((getE (alphas_cumprod T) t : ℚ) : ℝ)) := by
  have hT1 : 1 ≤ T := by omega
  refine ⟨linear_beta_schedule_length T, alphas_cumprod_length T,
    alphas_cumprod_prev_length T hT1, ?_, ?_, ?_,
    getE_alphas T t ht, getE_alphas_cumprod T t ht,
    getE_alphas_cumprod_prev_zero T,
    fun h => getE_alphas_cumprod_prev_succ T t h,
    getE_sqrt_recip_alphas T t ht,
    getE_sqrt_alphas_cumprod T t ht,
    getE_sqrt_one_minus_alphas_cumprod T t ht⟩
  · rw [getE_betas T 0 (by omega)]
    by_cases h1 : T ≤ 1 <;> simp [h1]
  · intro h2
    rw [getE_betas T (T - 1) (by omega)]
    rw [if_neg (by omega)]
    have hTQ : ((T : ℚ) - 1) ≠ 0 := by
      have h2Q : (2 : ℚ) ≤ (T : ℚ) := by exact_mod_cast h2
      intro hc
      rw [sub_eq_zero] at hc
      rw [hc] at h2Q
      norm_num at h2Q
    have hcast : ((T - 1 : ℕ) : ℚ) = (T : ℚ) - 1 := Nat.cast_sub hT1
    rw [hcast]
    field_simp
    ring
  · intro hsucc
    rw [getE_betas T (t + 1) hsucc, getE_betas T t (by omega)]
    rw [if_neg (by omega), if_neg (by omega)]
    have hTQ : ((T : ℚ) - 1) ≠ 0 := by
      have h2Q : (2 : ℚ) ≤ (T : ℚ) := by exact_mod_cast (by omega : 2 ≤ T)
      intro hc
      rw [sub_eq_zero] at hc
      rw [hc] at h2Q
      norm_num at h2Q
    push_cast
    field_simp
    ring

theorem claim_C3_witness :
    (1 : ℕ) < 3 ∧ (2 : ℕ) ≤ 3 ∧ 1 + 1 < 3 ∧
      getE (linear_beta_schedule 3) (3 - 1) = 1 / 50 ∧
      getE (alphas_cumprod_prev 3) (1 + 1) = getE (alphas_cumprod 3) 1 :=
  ⟨by decide, by decide, by decide,
    (claim_C3_schedule 3 1 (by decide)).2.2.2.2.1 (by decide),
    (claim_C3_schedule 3 1 (by decide)).2.2.2.2.2.2.2.2.2.1 (by decide)⟩

/-- C4: the cumulative product of alphas computed from the linear beta
schedule is monotonically non-increasing: entries with `s ≤ t < T` satisfy
`ᾱ_t ≤ ᾱ_s`. -/
theorem claim_C4_monotone (T s t : ℕ) (hst : s ≤ t) (ht : t < T) :
    getE (alphas_cumprod T) t ≤ getE (alphas_cumprod T) s :=
  alphas_cumprod_anti T s t hst ht

theorem claim_C4_witness :
    (1 : ℕ) ≤ 3 ∧ (3 : ℕ) < 5 ∧
      getE (alphas_cumprod 5) 3 ≤ getE (alphas_cumprod 5) 1 :=
  ⟨by decide, by decide, claim_C4_monotone 5 1 3 (by decide) (by decide)⟩

/-- C10: the first posterior-variance entry is exactly `0` because
`ᾱ_prev[0] = 1`; the divisor `1 − ᾱ_0` equals `β_0`, which is nonzero; and
the divisor `1 − ᾱ_t` is nonzero at every timestep. -/
theorem claim_C10_posterior_variance (T : ℕ) (hT : 1 ≤ T) :
    getE (posterior_variance T) 0 = 0 ∧
      1 - getE (alphas_cumprod T) 0 = getE (linear_beta_schedule T) 0 ∧
      getE (linear_beta_schedule T) 0 ≠ 0 ∧
      (∀ t, t < T → 1 - getE (alphas_cumprod T) t ≠ 0) := by
  have hacp0 : getE (alphas_cumprod T) 0 = getE (alphas T) 0 := by
    rw [getE_alphas_cumprod T 0 (by omega)]
    simp
  refine ⟨?_, ?_, ?_, ?_⟩
  · rw [getE_posterior_variance T 0 (by omega), getE_alphas_cumprod_prev_zero T]
    simp
  · rw [hacp0, getE_alphas T 0 (by omega)]
    ring
  · have := (betas_bounds T 0 (by omega)).1
    intro hc
    rw [hc] at this
    norm_num at this
  · intro t htT
    have := alphas_cumprod_lt_one T t htT
    intro hc
    have : getE (alphas_cumprod T) t = 1 := by linarith [sub_eq_zero.mp hc]
    linarith

theorem claim_C10_witness :
    (1 : ℕ) ≤ 3 ∧ (2 : ℕ) < 3 ∧
      getE (posterior_variance 3) 0 = 0 ∧
      1 - getE (alphas_cumprod 3) 2 ≠ 0 :=
  ⟨by decide, by decide, (claim_C10_posterior_variance 3 (by decide)).1,
    (claim_C10_posterior_variance 3 (by decide)).2.2.2 2 (by decide)⟩

/-- C8: `num_to_groups 10 4 = [4, 4, 2]`: `⌊10/4⌋` copies of the divisor
followed by the positive remainder. -/
theorem claim_C8_num_to_groups :
    num_to_groups 10 4 = [4, 4, 2] ∧
      num_to_groups 10 4 = List.replicate (10 / 4) 4 ++ [10 % 4] := by
  constructor <;> rfl

theorem getLast?_eq_getE {α : Type} [Inhabited α] (l : List α) (h : l ≠ []) :
    l.getLast? = some (getE l (l.length - 1)) := by
  have hlen : l.length - 1 < l.length := by
    cases l with
    | nil => exact absurd rfl h
    | cons a l2 => simp
  rw [List.getLast?_eq_getElem?, List.getElem?_eq_getElem hlen]
  simp [getE, List.getD_eq_getElem?_getD, List.getElem?_eq_getElem hlen]

/-- C2: `p_sample` at step index `0` returns the posterior mean
`√(1/α_t)·(x − β_t·model(x,t)/√(1−ᾱ_t))` unchanged (independently of the
noise draw), at any other index it adds `√(posterior_variance_t)` times the
fresh Gaussian draw, and the loop's first step is the one at `t = T−1`. -/
theorem claim_C2_p_sample (T b n : ℕ) (model : Model b n) (x init : Img b n)
    (t : Fin b → ℕ) (t_index : ℕ) (randn randn2 : Img b n)
    (noiseAt : ℕ → Img b n) (ht : ∀ i, t i < T) :
    p_sample T model x t 0 randn
        = (fun i j =>
            Real.sqrt (1 / ((getE (alphas T) (t i) : ℚ) : ℝ)) *
              (x i j - ((getE (linear_beta_schedule T) (t i) : ℚ) : ℝ) * model x t i j /
                Real.sqrt (1 - ((getE (alphas_cumprod T) (t i) : ℚ) : ℝ)))) ∧
      (t_index ≠ 0 →
        p_sample T model x t t_index randn
          = (fun i j =>
              Real.sqrt (1 / ((getE (alphas T) (t i) : ℚ) : ℝ)) *
                (x i j - ((getE (linear_beta_schedule T) (t i) : ℚ) : ℝ) * model x t i j /
                  Real.sqrt (1 - ((getE (alphas_cumprod T) (t i) : ℚ) : ℝ)))
                + Real.sqrt ((getE (posterior_variance T) (t i) : ℚ) : ℝ) * randn i j)) ∧
      p_sample T model x t 0 randn = p_sample T model x t 0 randn2 ∧
      (1 ≤ T →
        getE (p_sample_loop T model init noiseAt) 0
          = p_sample T model init (fun _ => T - 1) (T - 1) (noiseAt (T - 1))) := by
  refine ⟨?_, ?_, ?_, ?_⟩
  · funext i j
    simp [p_sample, getE_sqrt_recip_alphas T (t i) (ht i),
      getE_sqrt_one_minus_alphas_cumprod T (t i) (ht i)]
  · intro hne
    funext i j
    rw [p_sample, if_neg hne]
    simp [getE_sqrt_recip_alphas T (t i) (ht i),
      getE_sqrt_one_minus_alphas_cumprod T (t i) (ht i)]
  · simp [p_sample]
  · intro hT
    cases T with
    | zero => omega
    | succ k =>
      show getE (p_sample_loop_aux (k + 1) model noiseAt (k + 1) init) 0 = _
      simp [p_sample_loop_aux, getE]

theorem claim_C2_witness :
    (∀ i : Fin 1, (fun (_ : Fin 1) => (1 : ℕ)) i < 2) ∧
      p_sample 2 (fun (_ : Img 1 1) (_ : Fin 1 → ℕ) (_ : Fin 1) (_ : Fin 1) => (0 : ℝ))
          (fun (_ : Fin 1) (_ : Fin 1) => (1 : ℝ)) (fun (_ : Fin 1) => (1 : ℕ)) 0
          (fun (_ : Fin 1) (_ : Fin 1) => (0 : ℝ))
        = (fun (_ : Fin 1) (_ : Fin 1) =>
            Real.sqrt (1 / ((getE (alphas 2) 1 : ℚ) : ℝ)) *
              ((1 : ℝ) - ((getE (linear_beta_schedule 2) 1 : ℚ) : ℝ) * 0 /
                Real.sqrt (1 - ((getE (alphas_cumprod 2) 1 : ℚ) : ℝ)))) :=
  ⟨by decide,
    (claim_C2_p_sample 2 1 1
      (fun _ _ _ _ => 0) (fun _ _ => 1) (fun _ _ => 1) (fun _ => 1) 1
      (fun _ _ => 0) (fun _ _ => 0) (fun _ _ _ => 0) (by decide)).1⟩

/-- C5: with the schedule built for a single timestep and a model predicting
zero noise, the sampling loop returns (as its single element) the initial
image scaled by `√(1/α_0)`, with no noise added; here `α_0 = 9999/10000`. -/
theorem claim_C5_T1_zero_model (b n : ℕ) (model : Model b n) (init : Img b n)
    (noiseAt : ℕ → Img b n) (hmodel : ∀ x t i j, model x t i j = 0) :
    p_sample_loop 1 model init noiseAt
        = [fun i j => Real.sqrt (1 / ((getE (alphas 1) 0 : ℚ) : ℝ)) * init i j] ∧
      getE (alphas 1) 0 = 9999 / 10000 := by
  constructor
  · show p_sample_loop_aux 1 model noiseAt 1 init = _
    simp only [p_sample_loop_aux]
    congr 1
    funext i j
    show p_sample 1 model init (fun _ => 0) 0 (noiseAt 0) i j = _
    simp [p_sample, hmodel, getE_sqrt_recip_alphas 1 0 (by omega)]
  · have hr : List.range 1 = [0] := rfl
    simp [alphas, linear_beta_schedule, linspace, getE, hr]
    norm_num

theorem claim_C5_witness :
    p_sample_loop 1 (fun (_ : Img 1 1) (_ : Fin 1 → ℕ) (_ : Fin 1) (_ : Fin 1) => (0 : ℝ))
        (fun (_ : Fin 1) (_ : Fin 1) => (1 : ℝ))
        (fun _ => fun (_ : Fin 1) (_ : Fin 1) => (0 : ℝ))
      = [fun (_ : Fin 1) (_ : Fin 1) =>
          Real.sqrt (1 / ((getE (alphas 1) 0 : ℚ) : ℝ)) * 1] :=
  (claim_C5_T1_zero_model 1 1 (fun _ _ _ _ => 0) (fun _ _ => 1)
    (fun _ => fun _ _ => 0) (fun _ _ _ _ => rfl)).1

/-- C9: `p_sample_loop` returns a list (not a single tensor) of exactly `T`
images: entry `i` is the intermediate image after the step at `t = T−1−i`
(the recurrence `trajFrom`), and the last entry is the final denoised image
from the step at `t = 0`. -/
theorem claim_C9_loop_list (T b n : ℕ) (model : Model b n) (init : Img b n)
    (noiseAt : ℕ → Img b n) :
    (p_sample_loop T model init noiseAt).length = T ∧
      (∀ i, i < T → getE (p_sample_loop T model init noiseAt) i
        = trajFrom T model noiseAt T init i) ∧
      (1 ≤ T → (p_sample_loop T model init noiseAt).getLast?
        = some (trajFrom T model noiseAt T init (T - 1))) := by
  refine ⟨p_sample_loop_aux_length T model noiseAt T init,
    fun i hi => p_sample_loop_aux_getE T model noiseAt T init i hi, ?_⟩
  intro hT
  have hlen : (p_sample_loop T model init noiseAt).length = T :=
    p_sample_loop_aux_length T model noiseAt T init
  have hne : p_sample_loop T model init noiseAt ≠ [] := by
    intro hc
    rw [hc] at hlen
    simp at hlen
    omega
  rw [getLast?_eq_getE _ hne, hlen]
  exact congrArg some (p_sample_loop_aux_getE T model noiseAt T init (T - 1) (by omega))

theorem claim_C9_witness :
    (0 : ℕ) < 2 ∧ (1 : ℕ) ≤ 2 ∧
      (p_sample_loop 2 (fun (_ : Img 1 1) (_ : Fin 1 → ℕ) (_ : Fin 1) (_ : Fin 1) => (0 : ℝ))
          (fun (_ : Fin 1) (_ : Fin 1) => (0 : ℝ))
          (fun _ => fun (_ : Fin 1) (_ : Fin 1) => (0 : ℝ))).length = 2 ∧
      getE (p_sample_loop 2 (fun (_ : Img 1 1) (_ : Fin 1 → ℕ) (_ : Fin 1) (_ : Fin 1) => (0 : ℝ))
          (fun (_ : Fin 1) (_ : Fin 1) => (0 : ℝ))
          (fun _ => fun (_ : Fin 1) (_ : Fin 1) => (0 : ℝ))) 0
        = trajFrom 2 (fun (_ : Img 1 1) (_ : Fin 1 → ℕ) (_ : Fin 1) (_ : Fin 1) => (0 : ℝ))
            (fun _ => fun (_ : Fin 1) (_ : Fin 1) => (0 : ℝ)) 2
            (fun (_ : Fin 1) (_ : Fin 1) => (0 : ℝ)) 0 ∧
      (p_sample_loop 2 (fun (_ : Img 1 1) (_ : Fin 1 → ℕ) (_ : Fin 1) (_ : Fin 1) => (0 : ℝ))
          (fun (_ : Fin 1) (_ : Fin 1) => (0 : ℝ))
          (fun _ => fun (_ : Fin 1) (_ : Fin 1) => (0 : ℝ))).getLast?
        = some (trajFrom 2 (fun (_ : Img 1 1) (_ : Fin 1 → ℕ) (_ : Fin 1) (_ : Fin 1) => (0 : ℝ))
            (fun _ => fun (_ : Fin 1) (_ : Fin 1) => (0 : ℝ)) 2
            (fun (_ : Fin 1) (_ : Fin 1) => (0 : ℝ)) (2 - 1)) :=
  ⟨by decide, by decide,
    (claim_C9_loop_list 2 1 1 (fun _ _ _ _ => 0) (fun _ _ => 0) (fun _ _ _ => 0)).1,
    (claim_C9_loop_list 2 1 1 (fun _ _ _ _ => 0) (fun _ _ => 0) (fun _ _ _ => 0)).2.1
      0 (by decide),
    (claim_C9_loop_list 2 1 1 (fun _ _ _ _ => 0) (fun _ _ => 0) (fun _ _ _ => 0)).2.2
      (by decide)⟩

/-- C6: `p_losses` fails (the embedded `NotImplementedError` raise) exactly
when the selector is none of `"l1"`, `"l2"`, `"huber"`; for those three it
returns the L1, MSE, or smooth-L1 loss between the predicted and injected
noise without failing. -/
theorem claim_C6_p_losses (T b n : ℕ) (dm : Model b n) (x_start : Img b n)
    (t : Fin b → ℕ) (noise? : Option (Img b n)) (randn : Img b n)
    (loss_sel : String) :
    ((∃ e, p_losses T dm x_start t noise? randn loss_sel = Except.error e) ↔
        loss_sel ≠ "l1" ∧ loss_sel ≠ "l2" ∧ loss_sel ≠ "huber") ∧
      p_losses T dm x_start t noise? randn "l1"
        = Except.ok (l1_loss
            (dm (q_sample T x_start t (some (noise?.getD randn)) randn) t)
            (noise?.getD randn)) ∧
      p_losses T dm x_start t noise? randn "l2"
        = Except.ok (mse_loss
            (dm (q_sample T x_start t (some (noise?.getD randn)) randn) t)
            (noise?.getD randn)) ∧
      p_losses T dm x_start t noise? randn "huber"
        = Except.ok (smooth_l1_loss
            (dm (q_sample T x_start t (some (noise?.getD randn)) randn) t)
            (noise?.getD randn)) := by
  refine ⟨?_, by simp [p_losses], by simp [p_losses], by simp [p_losses]⟩
  by_cases h1 : loss_sel = "l1"
  · simp [p_losses, h1]
  · by_cases h2 : loss_sel = "l2"
    · simp [p_losses, h1, h2]
    · by_cases h3 : loss_sel = "huber"
      · simp [p_losses, h1, h2, h3]
      · simp [p_losses, h1, h2, h3]

theorem claim_C7_witness :
    (⟨8, none, none, [1, 2], 1, false, 4⟩ : UnetConfig).out_dim = none ∧
      ((none : Option Shape) = none ∨ (none : Option Shape) = some ⟨1, 1, 4, 4⟩) ∧
      unetForwardShape ⟨8, none, none, [1, 2], 1, false, 4⟩ ⟨1, 1, 4, 4⟩ none
        = some ⟨1, 1, 4, 4⟩ ∧
      (⟨1, 1, 4, 4⟩ : Shape) = ⟨1, 1, 4, 4⟩ :=
  ⟨rfl, Or.inl rfl, by decide,
    claim_C7_unet_shape ⟨8, none, none, [1, 2], 1, false, 4⟩ ⟨1, 1, 4, 4⟩ none
      ⟨1, 1, 4, 4⟩ rfl (Or.inl rfl) (by decide)⟩

end Diffusion
